import Mathlib

/-!
Verification development for the mneflow model layer
(src/mneflow/models.py).

The numeric code is shallowly embedded over the rationals: numpy and
tensorflow arrays become (nested) lists of rationals, a model becomes the
list of its flattened parameter arrays, and the loss/forward-pass of the
underlying framework becomes an abstract function argument.  Every
definition mirrors the corresponding Python function from the source;
definitions whose Python counterpart lives outside the provided sources
(mneflow.utils) are modelled from the specification and say so in their
doc comment.
-/

namespace Mneflow

/-! ### Generic array helpers (numpy primitives used by the source) -/

/-- Dot product of two vectors, as used by numpy matrix products.
Truncates at the shorter vector, matching zipWith. -/
def dotQ (a b : List ℚ) : ℚ :=
  (List.zipWith (fun x y => x * y) a b).sum

/-- Entry of a matrix represented as a list of rows; out-of-range reads
default to 0 (used only under explicit bounds hypotheses). -/
def entryM (M : List (List ℚ)) (i j : Nat) : ℚ :=
  (M.getD i []).getD j 0

/-- Maximum entry of a matrix (np.max); 0 for an empty matrix. -/
def maxMat (F : List (List ℚ)) : ℚ :=
  match F.flatten with
  | [] => 0
  | x :: xs => xs.foldl max x

/-- Minimum of a list of values (python min over dict values); 0 for []. -/
def minQ (ws : List ℚ) : ℚ :=
  match ws with
  | [] => 0
  | x :: xs => xs.foldl min x

/-- Elementwise matrix sum (numpy +=), zipWith semantics. -/
def matAdd (A B : List (List ℚ)) : List (List ℚ) :=
  List.zipWith (fun ra rb => List.zipWith (fun x y => x + y) ra rb) A B

/-- np.zeros([r, c]). -/
def zeroMat (r c : Nat) : List (List ℚ) :=
  (List.range r).map (fun _ => (List.range c).map (fun _ => (0 : ℚ)))

/-! ### BaseModel.predict (src/mneflow/models.py, lines 668-700)

The dataset is a list of batches; a batch carries the input rows and the
target rows.  The keras model forward pass is an abstract function from
one input row to one prediction row.  The source iterates over
dataset.take(1), appends the single batch to X and y, concatenates and
predicts. -/

structure Batch where
  xb : List (List ℚ)
  yb : List (List ℚ)
deriving DecidableEq

/-- Embedding of BaseModel.predict: consume dataset.take(1), concatenate,
return (y_true, y_pred). -/
def predict (km : List ℚ → List ℚ) (ds : List Batch) :
    List (List ℚ) × List (List ℚ) :=
  let taken := ds.take 1
  let X := taken.map (fun b => b.xb)
  let y := taken.map (fun b => b.yb)
  (y.flatten, (X.flatten).map km)

/-! ### Class-weight rescaling in BaseModel.train
(src/mneflow/models.py, lines 246-250):
multiplier = 1. / min(class_weights.values());
class_weights =-left-brace k : v*multiplier right-brace. -/

/-- Embedding of the class-weight rescaling applied when a non-empty
class-weights mapping is supplied to train. -/
def rescale_class_weights (ws : List ℚ) : List ℚ :=
  let multiplier := 1 / minQ ws
  ws.map (fun v => v * multiplier)

/-! ### The cv-mode fold loop of BaseModel.train
(src/mneflow/models.py, lines 288-330).

Each fold runs fit, evaluate, predict, optionally collect_patterns, and
then shuffles the weights iff jj < n_folds - 1.  We record the sequence
of framework operations the loop performs. -/

inductive TrainOp where
  | fit
  | evaluate
  | predictOp
  | collect
  | shuffleOp
deriving DecidableEq, BEq

/-- Number of occurrences of one operation in a trace. -/
def countOp (o : TrainOp) (l : List TrainOp) : Nat :=
  (l.filter (fun x => x == o)).length

/-- Operations performed by fold jj of the cv loop. -/
def cvFoldOps (nFolds : Nat) (collectPatterns : Bool) (jj : Nat) :
    List TrainOp :=
  [TrainOp.fit, TrainOp.evaluate, TrainOp.predictOp]
    ++ (if collectPatterns then [TrainOp.collect] else [])
    ++ (if jj < nFolds - 1 then [TrainOp.shuffleOp] else [])

/-- Operation trace of the whole cv loop: folds 0 .. nFolds-1 in order. -/
def cvOps (nFolds : Nat) (collectPatterns : Bool) : List TrainOp :=
  (List.range nFolds).flatMap (cvFoldOps nFolds collectPatterns)

/-! ### BaseModel.shuffle_weights (src/mneflow/models.py, lines 453-460):
weights = [np.random.permutation(w.flat).reshape(w.shape) for w in weights].

A parameter array is its shape together with its row-major flattened
data; np.random.permutation of the flat data is modelled by an arbitrary
index permutation supplied as input. -/

structure ParamArray where
  shape : List Nat
  flat : List ℚ
deriving DecidableEq

/-- Rearrangement of a flat vector by a list of source indices
(the result of np.random.permutation applied to w.flat). -/
def applyPerm (sigma : List Nat) (w : List ℚ) : List ℚ :=
  sigma.map (fun k => w.getD k 0)

/-- One parameter array after np.random.permutation(w.flat).reshape(w.shape):
the permuted flat data carried back under the unchanged shape. -/
def shuffleParam (sigma : List Nat) (w : ParamArray) : ParamArray :=
  ⟨w.shape, applyPerm sigma w.flat⟩

/-- Embedding of BaseModel.shuffle_weights over the full parameter list,
one index permutation per parameter array. -/
def shuffle_weights (sigmas : List (List Nat)) (ws : List ParamArray) :
    List ParamArray :=
  List.zipWith shuffleParam sigmas ws

/-! ### BaseModel._confusion_matrix and its accumulation in train
(src/mneflow/models.py, lines 487-490 and 311-320).

y_p = _onehot(np.argmax(y_pred, 1), n_classes); cm = np.dot(y_p.T, y_true);
train starts from self.cm = np.zeros([n_classes, n_classes]) and does
self.cm += _confusion_matrix(y_true, y_pred) once per fold. -/

/-- Maximum value of a 1-D array (np.max); 0 for an empty array. -/
def maxQ (xs : List ℚ) : ℚ :=
  match xs with
  | [] => 0
  | x :: r => r.foldl max x

/-- np.argmax over a 1-D array: index of the first occurrence of the
maximum value. -/
def argmaxL (xs : List ℚ) : Nat :=
  xs.indexOf (maxQ xs)

/-- Modelled from the spec: the helper _onehot is imported from
mneflow.utils, which is not among the provided sources.  Per the spec
the per-fold confusion contribution is onehot(argmax(pred)) transposed
times true, so _onehot of one class index is the indicator row over
n_classes. -/
def onehotVec (nClasses idx : Nat) : List ℚ :=
  (List.range nClasses).map (fun k => if k = idx then 1 else 0)

/-- Embedding of BaseModel._confusion_matrix.  The targets are one-hot
rows over nClasses, so np.dot(y_p.T, y_true) is the nClasses x nClasses
table whose (a, b) entry is the dot product of column a of y_p with
column b of y_true. -/
def confusion_matrix (nClasses : Nat) (yTrue yPred : List (List ℚ)) :
    List (List ℚ) :=
  let yp := yPred.map (fun row => onehotVec nClasses (argmaxL row))
  (List.range nClasses).map (fun a =>
    (List.range nClasses).map (fun b =>
      dotQ (yp.map (fun r => r.getD a 0)) (yTrue.map (fun r => r.getD b 0))))

/-- Confusion-matrix accumulation across the folds of a train run: start
from np.zeros and add one per-fold contribution per fold, in order.
Each fold is its (y_true, y_pred) pair from predict. -/
def train_cv_cm (nClasses : Nat)
    (folds : List (List (List ℚ) × List (List ℚ))) : List (List ℚ) :=
  folds.foldl
    (fun cm f => matAdd cm (confusion_matrix nClasses f.1 f.2))
    (zeroMat nClasses nClasses)

/-! ### The data covariance of LFCNN.compute_patterns
(src/mneflow/models.py, lines 1034-1039):

X = tf.transpose(X, [3, 0, 1, 2]); X = tf.reshape(X, [X.shape[0], -1]);
nt = self.dataset.h_params of n_t;
self.dcov = tf.matmul(X, tf.transpose(X)) / (nt - 1).

A batch X is a 4-D array indexed [batch][seq][time][channel]. -/

/-- One row of the channel-first flattening of the batch: the values of
channel c across batch, seq and time, in row-major order. -/
def chanRow (c : Nat) (X : List (List (List (List ℚ)))) : List ℚ :=
  X.flatMap (fun trial => trial.flatMap (fun sq => sq.map (fun ts => ts.getD c 0)))

/-- tf.reshape(tf.transpose(X, [3, 0, 1, 2]), [n_ch, -1]). -/
def chanFirst (nCh : Nat) (X : List (List (List (List ℚ)))) :
    List (List ℚ) :=
  (List.range nCh).map (fun c => chanRow c X)

/-- M times M transposed (tf.matmul(X, tf.transpose(X))). -/
def gram (M : List (List ℚ)) : List (List ℚ) :=
  M.map (fun r1 => M.map (fun r2 => dotQ r1 r2))

/-- Embedding of the dataCovariance computed by compute_patterns: the
channel-first gram matrix divided by (nt - 1), where nt is
h_params of n_t, the per-trial time-sample count. -/
def dcov (nt nCh : Nat) (X : List (List (List (List ℚ)))) :
    List (List ℚ) :=
  (gram (chanFirst nCh X)).map (fun r => r.map (fun v => v / ((nt : ℚ) - 1)))

/-- The data covariance as the spec words it: divide by T - 1 where T is
the total number of time samples contributing (batch x seq x time), that
is, the length of a flattened channel row.  Stated from the words of the
spec, for comparison with dcov. -/
def specDataCovariance (nCh : Nat) (X : List (List (List (List ℚ)))) :
    List (List ℚ) :=
  let M := chanFirst nCh X
  let T := (M.getD 0 []).length
  (gram M).map (fun r => r.map (fun v => v / ((T : ℚ) - 1)))

/-- Shape predicate: r rows, each of length c. -/
def isShape (r c : Nat) (M : List (List ℚ)) : Prop :=
  M.length = r ∧ ∀ row ∈ M, row.length = c

/-! ### LFCNN._sorting (src/mneflow/models.py, lines 1324-1414)

The method reads the arrays produced by compute_patterns and dispatches
on a sorting-mode string; unrecognized modes print a message and return
(None, None), modelled as Option.none.  2-D numpy arrays are lists of
rows; the 3-D arrays out_weights and corr_to_output are indexed
[time][latent][unit]. -/

/-- numpy .T on a [rows][cols] matrix, with the column count explicit. -/
def transposeM (cols : Nat) (M : List (List ℚ)) : List (List ℚ) :=
  (List.range cols).map (fun j => M.map (fun r => r.getD j 0))

/-- A[..., i]: slice the last axis of a [time][latent][unit] array at
unit i, giving a [time][latent] matrix. -/
def sliceUnit (A : List (List (List ℚ))) (i : Nat) : List (List ℚ) :=
  A.map (fun t => t.map (fun comps => comps.getD i 0))

/-- Insert index i into an index list sorted by ascending value. -/
def argsortInsert (xs : List ℚ) (i : Nat) : List Nat → List Nat
  | [] => [i]
  | j :: js =>
      if xs.getD i 0 ≤ xs.getD j 0 then i :: j :: js
      else j :: argsortInsert xs i js

/-- np.argsort: indices that sort the array ascending (insertion sort;
numpy leaves tie order unspecified, this model keeps ties stable). -/
def argsort (xs : List ℚ) : List Nat :=
  (List.range xs.length).foldr (argsortInsert xs) []

/-- Squared L2 norm of a row.  np.linalg.norm(., ord=2) is the square
root of this; the l2 branch only feeds the norms to argsort and the
square root is strictly monotone on nonnegatives, so sorting by squared
norms produces the same index order (rationals have no square root). -/
def l2normSq (r : List ℚ) : ℚ :=
  (r.map (fun v => v * v)).sum

/-- python negative slicing l[-n:], as used by np.argsort(...)[-n_comp:]
(for n = 0 python returns the whole list). -/
def lastSlice {α : Type} (n : Nat) (l : List α) : List α :=
  if n = 0 then l else l.drop (l.length - n)

/-- np.where(F == np.max(F)) on a 2-D array: all (row, column) pairs
attaining the maximum, in row-major order. -/
def whereEqMax (F : List (List ℚ)) : List (Nat × Nat) :=
  (List.range F.length).flatMap (fun p =>
    (List.range ((F.getD p []).length)).filterMap (fun t =>
      if (F.getD p []).getD t 0 = maxMat F then some (p, t) else none))

/-- np.abs of the elementwise product of two matrices
(np.abs(A * B) in the weight_corr branch). -/
def matHadAbs (A B : List (List ℚ)) : List (List ℚ) :=
  List.zipWith (fun ra rb => List.zipWith (fun a b => |a * b|) ra rb) A B

/-- np.argmax(M, 0): for each of the nCols columns, the row index of the
first maximum. -/
def argmaxAxis0 (nCols : Nat) (M : List (List ℚ)) : List Nat :=
  (List.range nCols).map (fun j => argmaxL (M.map (fun r => r.getD j 0)))

/-- The attributes of the LFCNN instance that _sorting reads: out_dim,
specs n_latent, out_weights, corr_to_output, component_relevance_loss,
pattern_weights and y_shape[0]. -/
structure SortInput where
  outDim : Nat
  nLatent : Nat
  ow : List (List (List ℚ))
  corr : List (List (List ℚ))
  crl : List (List ℚ)
  pw : List (List ℚ)
  yShape0 : Nat

/-- self.F = self.out_weights[..., i].T for output unit i. -/
def Fweight (d : SortInput) (i : Nat) : List (List ℚ) :=
  transposeM d.nLatent (sliceUnit d.ow i)

/-- self.F = self.corr_to_output[..., i].T for output unit i. -/
def FoutputCorr (d : SortInput) (i : Nat) : List (List ℚ) :=
  transposeM d.nLatent (sliceUnit d.corr i)

/-- self.F = np.abs(out_weights[..., i].T * corr_to_output[..., i].T). -/
def FweightCorr (d : SortInput) (i : Nat) : List (List ℚ) :=
  matHadAbs (Fweight d i) (FoutputCorr d i)

/-- Embedding of LFCNN._sorting.  Per-unit loop appends become maps over
range out_dim; the final np.array conversions are identity on our
representation; the combined branch yields a 1-D order array, carried
here as a single row.  Unrecognized modes return none, the embedding of
the source returning (None, None) after printing. -/
def _sorting (d : SortInput) (sorting : String) (nComp : Nat) :
    Option (List (List Nat) × List (List Nat)) :=
  if sorting = "l2" then
    some ((List.range d.outDim).map (fun i =>
        (lastSlice nComp (argsort ((Fweight d i).map l2normSq))).take nComp),
      (List.range d.outDim).map (fun i =>
        List.range (((Fweight d i).getD 0 []).length)))
  else if sorting = "combined" then
    some ([argmaxAxis0 ((d.pw.getD 0 []).length) d.pw],
      (List.range d.yShape0).map (fun _ => List.range d.ow.length))
  else if sorting = "compwise_loss" then
    some ((List.range d.outDim).map (fun i =>
        (argsort (d.crl.map (fun r => r.getD i 0))).take nComp),
      (List.range d.outDim).map (fun i =>
        List.range (((Fweight d i).getD 0 []).length)))
  else if sorting = "weight_corr" then
    some ((List.range d.outDim).map (fun i =>
        (whereEqMax (FweightCorr d i)).map Prod.fst),
      (List.range d.outDim).map (fun i =>
        (whereEqMax (FweightCorr d i)).map Prod.snd))
  else if sorting = "weight" then
    some ((List.range d.outDim).map (fun i =>
        (whereEqMax (Fweight d i)).map Prod.fst),
      (List.range d.outDim).map (fun i =>
        (whereEqMax (Fweight d i)).map Prod.snd))
  else if sorting = "output_corr" then
    some ((List.range d.outDim).map (fun i =>
        (whereEqMax (FoutputCorr d i)).map Prod.fst),
      (List.range d.outDim).map (fun i =>
        (whereEqMax (FoutputCorr d i)).map Prod.snd))
  else
    none

/-- The six sorting modes the source recognizes. -/
def sortingModes : List String :=
  ["l2", "combined", "compwise_loss", "weight_corr", "weight", "output_corr"]

/-! ### LFCNN.componentwise_loss (src/mneflow/models.py, lines 1070-1103)

model_weights = self.km.get_weights() is the list of parameter arrays
(each carried here in flattened form); entry -2 is the flattened
output-layer weight out_w_flat and entry -1 the output bias.
km.evaluate on the fixed batch is abstracted as a loss functional L on
the weight list.  out_weights is [time][latent][unit], out_biases a
vector.  For every (i, jj) the loop zeroes column (:, i, jj) of a fresh
copy of out_weights and bias jj of a fresh copy of out_biases, installs
both into the model by mutating entries -2 and -1 of model_weights and
calling set_weights, evaluates, and records base_loss - loss.  The loop
ends without any further set_weights call. -/

/-- np.reshape(new_weights, out_w_flat.shape): row-major flattening of
the [time][latent][unit] array. -/
def flat3 (ow : List (List (List ℚ))) : List ℚ :=
  (ow.map List.flatten).flatten

/-- new_weights[:, i, j] = zeroweights: zero component i, unit j at
every time bin. -/
def ablateCol (ow : List (List (List ℚ))) (i j : Nat) :
    List (List (List ℚ)) :=
  ow.map (fun tr => tr.set i ((tr.getD i []).set j 0))

/-- model_weights[-2] = a; model_weights[-1] = b (set keeps the length,
so both python indices resolve against the original length). -/
def setLast2 (ws : List (List ℚ)) (a b : List ℚ) : List (List ℚ) :=
  (ws.set (ws.length - 2) a).set (ws.length - 1) b

/-- The weight list installed for ablation (i, j): entries -2 and -1
replaced by the flattened ablated out_weights and the ablated bias, all
other parameters as in ws. -/
def installAbl (ws : List (List ℚ)) (ow : List (List (List ℚ)))
    (ob : List ℚ) (i j : Nat) : List (List ℚ) :=
  setLast2 ws (flat3 (ablateCol ow i j)) (ob.set j 0)

/-- Inner loop of componentwise_loss (for jj in range(n_out_y)):
threads the mutated model_weights list and records
base_loss - loss per unit, in unit order. -/
def cwlRow (L : List (List ℚ) → ℚ) (L0 : ℚ) (ow : List (List (List ℚ)))
    (ob : List ℚ) (i : Nat) (mw : List (List ℚ)) :
    List Nat → List ℚ × List (List ℚ)
  | [] => ([], mw)
  | j :: js =>
      let mw1 := setLast2 mw (flat3 (ablateCol ow i j)) (ob.set j 0)
      let r := cwlRow L L0 ow ob i mw1 js
      ((L0 - L mw1) :: r.1, r.2)

/-- Outer loop of componentwise_loss (for i in range(n_latent)). -/
def cwlRows (L : List (List ℚ) → ℚ) (L0 : ℚ) (ow : List (List (List ℚ)))
    (ob : List ℚ) (nOut : Nat) (mw : List (List ℚ)) :
    List Nat → List (List ℚ) × List (List ℚ)
  | [] => ([], mw)
  | i :: is =>
      let r := cwlRow L L0 ow ob i mw (List.range nOut)
      let rest := cwlRows L L0 ow ob nOut r.2 is
      (r.1 :: rest.1, rest.2)

/-- Embedding of componentwise_loss: base_loss is evaluated on the entry
weights, then the n_latent x n_out_y sweep runs.  Returns the relevance
matrix (self.component_relevance_loss) together with the weight list the
model holds when the call returns. -/
def componentwise_loss (L : List (List ℚ) → ℚ)
    (ow : List (List (List ℚ))) (ob : List ℚ) (nLatent nOut : Nat)
    (mw0 : List (List ℚ)) : List (List ℚ) × List (List ℚ) :=
  cwlRows L (L mw0) ow ob nOut mw0 (List.range nLatent)

/-- Entry of a 3-D array. -/
def entry3 (A : List (List (List ℚ))) (t l u : Nat) : ℚ :=
  ((A.getD t []).getD l []).getD u 0

/-! ### Supporting lemmas -/

/-- getD at an in-range index is plain indexing. -/
theorem getD_of_lt {α : Type} (l : List α) (d : α) (i : Nat)
    (h : i < l.length) : l.getD i d = l[i] := by
  rw [List.getD_eq_getElem?_getD, List.getElem?_eq_getElem h]
  rfl

/-- Reading back a whole list through List.getD at indices 0..len-1
reproduces the list. -/
theorem range_map_getD (w : List ℚ) :
    (List.range w.length).map (fun k => w.getD k 0) = w := by
  apply List.ext_getElem
  · simp
  · intro i h1 h2
    simp [List.getD_eq_getElem?_getD, List.getElem?_eq_getElem h2]

/-- applyPerm by a permutation of all indices permutes the vector. -/
theorem applyPerm_perm (sigma : List Nat) (w : List ℚ)
    (h : sigma.Perm (List.range w.length)) :
    (applyPerm sigma w).Perm w := by
  have h2 := h.map (fun k => w.getD k 0)
  rw [range_map_getD] at h2
  exact h2

/-- Positivity of minQ over a list of positive values. -/
theorem minQ_pos (ws : List ℚ) (hne : ws ≠ []) (hpos : ∀ w ∈ ws, 0 < w) :
    0 < minQ ws := by
  match ws with
  | [] => exact absurd rfl hne
  | x :: xs =>
    simp only [minQ]
    have hx : 0 < x := hpos x (by simp)
    have hxs : ∀ w ∈ xs, 0 < w := fun w hw => hpos w (by simp [hw])
    clear hne hpos
    induction xs generalizing x with
    | nil => exact hx
    | cons a l ih =>
      simp only [List.foldl_cons]
      exact ih (min x a) (lt_min hx (hxs a (by simp)))
        (fun w hw => hxs w (by simp [hw]))

/-- Distributing a nonnegative scaling over a binary min. -/
theorem min_mul_nonneg (a b c : ℚ) (hc : 0 ≤ c) :
    min a b * c = min (a * c) (b * c) := by
  rcases le_total a b with h | h
  · rw [min_eq_left h, min_eq_left (mul_le_mul_of_nonneg_right h hc)]
  · rw [min_eq_right h, min_eq_right (mul_le_mul_of_nonneg_right h hc)]

/-- minQ commutes with scaling by a nonnegative constant. -/
theorem minQ_map_mul (ws : List ℚ) (c : ℚ) (hc : 0 ≤ c) :
    minQ (ws.map (fun v => v * c)) = minQ ws * c := by
  match ws with
  | [] => simp [minQ]
  | x :: xs =>
    simp only [List.map_cons, minQ]
    induction xs generalizing x with
    | nil => rfl
    | cons a l ih =>
      simp only [List.map_cons, List.foldl_cons]
      rw [← min_mul_nonneg x a c hc]
      exact ih (min x a)

/-- getD through List.map at an in-range index. -/
theorem getD_map_mul (ws : List ℚ) (c : ℚ) (i : Nat) (hi : i < ws.length) :
    (ws.map (fun v => v * c)).getD i 0 = ws.getD i 0 * c := by
  have hi2 : i < (ws.map (fun v => v * c)).length := by simpa using hi
  rw [List.getD_eq_getElem?_getD, List.getElem?_eq_getElem hi2,
    List.getD_eq_getElem?_getD, List.getElem?_eq_getElem hi]
  simp

/-- Entry of a table built by mapping over two ranges. -/
theorem entry_tableM (n m : Nat) (F : Nat → Nat → ℚ) (a b : Nat)
    (ha : a < n) (hb : b < m) :
    entryM ((List.range n).map (fun i => (List.range m).map (fun j => F i j)))
      a b = F a b := by
  have ha2 : a < ((List.range n).map
      (fun i => (List.range m).map (fun j => F i j))).length := by simpa using ha
  have hb2 : b < ((List.range m).map (fun j => F a j)).length := by
    simpa using hb
  rw [entryM, getD_of_lt _ _ _ ha2]
  simp only [List.getElem_map, List.getElem_range]
  rw [getD_of_lt _ _ _ hb2]
  simp

/-- Entries of np.zeros are 0. -/
theorem zeroMat_entry (r c a b : Nat) (ha : a < r) (hb : b < c) :
    entryM (zeroMat r c) a b = 0 :=
  entry_tableM r c (fun _ _ => 0) a b ha hb

/-- np.zeros([n, n]) has shape n x n. -/
theorem zeroMat_shape (r c : Nat) : isShape r c (zeroMat r c) := by
  constructor
  · simp [zeroMat]
  · intro row hrow
    simp only [zeroMat, List.mem_map] at hrow
    obtain ⟨i, _, rfl⟩ := hrow
    simp

/-- The confusion matrix contribution of one fold is nClasses x nClasses. -/
theorem confusion_matrix_shape (n : Nat) (yTrue yPred : List (List ℚ)) :
    isShape n n (confusion_matrix n yTrue yPred) := by
  constructor
  · simp [confusion_matrix]
  · intro row hrow
    simp only [confusion_matrix, List.mem_map] at hrow
    obtain ⟨i, _, rfl⟩ := hrow
    simp

/-- Elementwise matrix addition preserves the n x n shape. -/
theorem matAdd_shape (n : Nat) (A B : List (List ℚ))
    (hA : isShape n n A) (hB : isShape n n B) : isShape n n (matAdd A B) := by
  have hlen : (matAdd A B).length = min A.length B.length := by
    simp [matAdd]
  constructor
  · rw [hlen, hA.1, hB.1]
    omega
  · intro row hrow
    obtain ⟨i, hi, rfl⟩ := List.mem_iff_getElem.mp hrow
    rw [hlen, hA.1, hB.1] at hi
    have hiA : i < A.length := by omega
    have hiB : i < B.length := by omega
    simp only [matAdd, List.getElem_zipWith, List.length_zipWith]
    rw [hA.2 _ (List.getElem_mem hiA), hB.2 _ (List.getElem_mem hiB)]
    omega

/-- Entrywise description of matAdd on two n x n matrices. -/
theorem matAdd_entry (n : Nat) (A B : List (List ℚ))
    (hA : isShape n n A) (hB : isShape n n B) (a b : Nat)
    (ha : a < n) (hb : b < n) :
    entryM (matAdd A B) a b = entryM A a b + entryM B a b := by
  have haA : a < A.length := hA.1 ▸ ha
  have haB : a < B.length := hB.1 ▸ ha
  have haZ : a < (matAdd A B).length := by
    simp only [matAdd, List.length_zipWith]
    omega
  have hbA : b < A[a].length := by rw [hA.2 _ (List.getElem_mem haA)]; exact hb
  have hbB : b < B[a].length := by rw [hB.2 _ (List.getElem_mem haB)]; exact hb
  have hbZ : b < (List.zipWith (fun x y => x + y) A[a] B[a]).length := by
    rw [List.length_zipWith]
    omega
  rw [entryM, entryM, entryM, getD_of_lt _ _ _ haZ, getD_of_lt _ _ _ haA,
    getD_of_lt _ _ _ haB]
  simp only [matAdd, List.getElem_zipWith]
  rw [getD_of_lt _ _ _ hbZ, getD_of_lt _ _ _ hbA, getD_of_lt _ _ _ hbB]
  simp

/-- Dot product of two mapped columns as a sum over the zipped rows. -/
theorem dotQ_map_map {α β : Type} (l1 : List α) (l2 : List β)
    (f : α → ℚ) (g : β → ℚ) :
    dotQ (l1.map f) (l2.map g)
      = ((l1.zip l2).map (fun p => f p.1 * g p.2)).sum := by
  induction l1 generalizing l2 with
  | nil => simp [dotQ]
  | cons x xs ih =>
    cases l2 with
    | nil => simp [dotQ]
    | cons y ys =>
      simp only [List.map_cons, List.zip_cons_cons, dotQ, List.zipWith_cons_cons,
        List.sum_cons]
      rw [← dotQ, ih ys]

/-- Accumulating per-fold confusion contributions over any n x n
accumulator adds the per-fold entries. -/
theorem foldl_cm_entry (n a b : Nat) (ha : a < n) (hb : b < n)
    (folds : List (List (List ℚ) × List (List ℚ))) :
    ∀ acc : List (List ℚ), isShape n n acc →
      entryM (folds.foldl
          (fun cm f => matAdd cm (confusion_matrix n f.1 f.2)) acc) a b
        = entryM acc a b
          + (folds.map (fun f => entryM (confusion_matrix n f.1 f.2) a b)).sum
      := by
  induction folds with
  | nil => intro acc _; simp
  | cons f fs ih =>
    intro acc hacc
    have hC := confusion_matrix_shape n f.1 f.2
    have hacc2 := matAdd_shape n acc _ hacc hC
    simp only [List.foldl_cons, List.map_cons, List.sum_cons]
    rw [ih _ hacc2, matAdd_entry n acc _ hacc hC a b ha hb]
    ring

/-- Dot product of two maps over the same list, as a sum of products. -/
theorem dotQ_map_same {α : Type} (l : List α) (f g : α → ℚ) :
    dotQ (l.map f) (l.map g) = (l.map (fun x => f x * g x)).sum := by
  induction l with
  | nil => simp [dotQ]
  | cons x xs ih =>
    simp only [List.map_cons, dotQ, List.zipWith_cons_cons, List.sum_cons]
    rw [← dotQ, ih]

/-- Dot product of two flatMaps over the same spine splits into a sum of
blockwise dot products when corresponding blocks have equal length. -/
theorem dotQ_flatMap {α : Type} (l : List α) (f g : α → List ℚ)
    (h : ∀ x, (f x).length = (g x).length) :
    dotQ (l.flatMap f) (l.flatMap g)
      = (l.map (fun x => dotQ (f x) (g x))).sum := by
  induction l with
  | nil => simp [dotQ]
  | cons x xs ih =>
    simp only [dotQ] at ih ⊢
    simp only [List.flatMap_cons, List.map_cons, List.sum_cons]
    rw [List.zipWith_append _ _ _ _ _ (h x), List.sum_append, ih]

/-- The two channel rows of a batch always have the same length. -/
theorem chanRow_length (c1 c2 : Nat) (X : List (List (List (List ℚ)))) :
    (chanRow c1 X).length = (chanRow c2 X).length := by
  simp [chanRow, List.length_flatMap, Function.comp_def]

/-- The sum of a flatMap is the sum of the blockwise sums. -/
theorem sum_flatMapQ {α : Type} (l : List α) (f : α → List ℚ) :
    (l.flatMap f).sum = (l.map (fun x => (f x).sum)).sum := by
  induction l with
  | nil => simp
  | cons x xs ih => simp [List.flatMap_cons, List.sum_append, ih]

/-- Gram entry of the channel-first flattening: the sum over every
(batch, seq, time) sample of the product of the two channel values. -/
theorem dotQ_chanRow (c1 c2 : Nat) (X : List (List (List (List ℚ)))) :
    dotQ (chanRow c1 X) (chanRow c2 X)
      = (X.flatMap (fun trial => trial.flatMap (fun sq =>
          sq.map (fun ts => ts.getD c1 0 * ts.getD c2 0)))).sum := by
  rw [chanRow, chanRow,
    dotQ_flatMap X _ _ (fun tr => by simp [List.length_flatMap, Function.comp_def]),
    sum_flatMapQ]
  congr 1
  apply List.map_congr_left
  intro trial _
  rw [dotQ_flatMap trial _ _ (fun sq => by simp), sum_flatMapQ]
  congr 1
  apply List.map_congr_left
  intro sq _
  rw [dotQ_map_same]

/-- Membership in whereEqMax characterizes exactly the in-range cells
whose value attains the matrix maximum. -/
theorem whereEqMax_mem (F : List (List ℚ)) (p t : Nat) :
    (p, t) ∈ whereEqMax F ↔
      p < F.length ∧ t < (F.getD p []).length ∧
        (F.getD p []).getD t 0 = maxMat F := by
  simp only [whereEqMax, List.mem_flatMap, List.mem_range, List.mem_filterMap]
  constructor
  · rintro ⟨p', hp', t', ht', h⟩
    split at h
    · rename_i he
      obtain ⟨rfl, rfl⟩ := Prod.mk.injEq .. ▸ Option.some.inj h
      exact ⟨hp', ht', he⟩
    · exact absurd h (by simp)
  · rintro ⟨hp, ht, he⟩
    exact ⟨p, hp, t, ht, by rw [if_pos he]⟩

/-- zip of the two projections of a pair list is the list itself. -/
theorem zip_fst_snd {α β : Type} (l : List (α × β)) :
    (l.map Prod.fst).zip (l.map Prod.snd) = l := by
  induction l with
  | nil => rfl
  | cons x xs ih => simp [List.zip_cons_cons, ih]

/-- getD through a map over List.range at an in-range index. -/
theorem getD_map_range {α : Type} (n i : Nat) (f : Nat → α) (d : α)
    (hi : i < n) : ((List.range n).map f).getD i d = f i := by
  have h2 : i < ((List.range n).map f).length := by simpa using hi
  rw [getD_of_lt _ _ _ h2]
  simp

/-- The cells listed by whereEqMax are exactly the maximizers: every
listed cell attains the matrix maximum, and every in-range maximizing
cell is listed. -/
theorem whereEqMax_rows_spec (F : List (List ℚ)) :
    (∀ pr ∈ whereEqMax F, entryM F pr.1 pr.2 = maxMat F) ∧
    (∀ p t, p < F.length → t < (F.getD p []).length →
        entryM F p t = maxMat F → (p, t) ∈ whereEqMax F) := by
  constructor
  · intro pr hpr
    have h := (whereEqMax_mem F pr.1 pr.2).mp (by simpa using hpr)
    simpa [entryM] using h.2.2
  · intro p t hp ht he
    exact (whereEqMax_mem F p t).mpr ⟨hp, ht, by simpa [entryM] using he⟩

/-- getD through List.map at an in-range index, any defaults. -/
theorem getD_map_lt {α β : Type} (xs : List α) (f : α → β) (k : Nat)
    (d : β) (d0 : α) (hk : k < xs.length) :
    (xs.map f).getD k d = f (xs.getD k d0) := by
  rw [getD_of_lt _ _ _ (by simpa using hk), getD_of_lt _ _ _ hk]
  simp

/-- getD through List.set at an in-range index. -/
theorem getD_set_lt {α : Type} (xs : List α) (m k : Nat) (v d : α)
    (hk : k < xs.length) :
    (xs.set m v).getD k d = if m = k then v else xs.getD k d := by
  have hk2 : k < (xs.set m v).length := by simpa using hk
  rw [getD_of_lt _ _ _ hk2, getD_of_lt _ _ _ hk]
  simp [List.getElem_set]

/-- Overwriting the last two entries twice keeps only the last write. -/
theorem setLast2_setLast2 (ws : List (List ℚ)) (a b a' b' : List ℚ) :
    setLast2 (setLast2 ws a b) a' b' = setLast2 ws a' b' := by
  simp only [setLast2, List.length_set]
  by_cases h : ws.length - 2 = ws.length - 1
  · rw [h]
    simp [List.set_set]
  · rw [List.set_comm b a' _ (Ne.symm h)]
    simp [List.set_set]

/-- The inner ablation loop: starting from any weight list whose last
two slots overwrite like those of mw0, it records
base_loss minus the loss at the independent ablation of mw0 for every
unit, and its final state still overwrites like mw0. -/
theorem cwlRow_spec (L : List (List ℚ) → ℚ) (L0 : ℚ)
    (ow : List (List (List ℚ))) (ob : List ℚ) (i : Nat)
    (mw0 : List (List ℚ)) (js : List Nat) :
    ∀ mw : List (List ℚ),
      (∀ a b, setLast2 mw a b = setLast2 mw0 a b) →
      (cwlRow L L0 ow ob i mw js).1
          = js.map (fun j => L0 - L (installAbl mw0 ow ob i j))
      ∧ (∀ a b,
          setLast2 (cwlRow L L0 ow ob i mw js).2 a b = setLast2 mw0 a b) := by
  induction js with
  | nil =>
    intro mw h
    exact ⟨rfl, h⟩
  | cons j js ih =>
    intro mw h
    have h1 : setLast2 mw (flat3 (ablateCol ow i j)) (ob.set j 0)
        = installAbl mw0 ow ob i j := h _ _
    have hP : ∀ a b,
        setLast2 (setLast2 mw (flat3 (ablateCol ow i j)) (ob.set j 0)) a b
          = setLast2 mw0 a b := by
      intro a b
      rw [setLast2_setLast2, h]
    obtain ⟨hr1, hr2⟩ := ih _ hP
    constructor
    · simp only [cwlRow, List.map_cons]
      rw [hr1, h1]
    · simp only [cwlRow]
      exact hr2

/-- The outer ablation loop, same invariant, one row per component. -/
theorem cwlRows_spec (L : List (List ℚ) → ℚ) (L0 : ℚ)
    (ow : List (List (List ℚ))) (ob : List ℚ) (nOut : Nat)
    (mw0 : List (List ℚ)) (is : List Nat) :
    ∀ mw : List (List ℚ),
      (∀ a b, setLast2 mw a b = setLast2 mw0 a b) →
      (cwlRows L L0 ow ob nOut mw is).1
          = is.map (fun i => (List.range nOut).map
              (fun j => L0 - L (installAbl mw0 ow ob i j)))
      ∧ (∀ a b,
          setLast2 (cwlRows L L0 ow ob nOut mw is).2 a b
            = setLast2 mw0 a b) := by
  induction is with
  | nil =>
    intro mw h
    exact ⟨rfl, h⟩
  | cons i is ih =>
    intro mw h
    obtain ⟨hrow1, hrow2⟩ := cwlRow_spec L L0 ow ob i mw0 (List.range nOut) mw h
    obtain ⟨hr1, hr2⟩ := ih _ hrow2
    constructor
    · simp only [cwlRows, List.map_cons]
      rw [hr1, hrow1]
    · simp only [cwlRows]
      exact hr2

/-! ### Claim theorems: training-loop level -/

/-- C10: predict consumes exactly the first batch of the dataset it
resolves: its result is the first batch targets paired with the model
applied to the first batch inputs, and it is invariant under replacing
everything after the first batch — so y_true and y_pred cover at most
one batch of the validation data. -/
theorem predict_consumes_one_batch (km : List ℚ → List ℚ) (b : Batch)
    (rest rest' : List Batch) :
    predict km (b :: rest) = (b.yb, b.xb.map km) ∧
    predict km (b :: rest) = predict km (b :: rest') := by
  constructor <;> simp [predict]

/-- C4: in cv mode the weight shuffle runs exactly once after each fold
jj with jj < n_folds - 1 and never after the last fold; with
n_folds = 3 the whole loop shuffles exactly twice. -/
theorem cv_shuffle_schedule (nFolds jj : Nat) (cp : Bool)
    (h : jj < nFolds) :
    countOp TrainOp.shuffleOp (cvFoldOps nFolds cp jj)
        = (if jj < nFolds - 1 then 1 else 0) ∧
    countOp TrainOp.shuffleOp (cvOps 3 cp) = 2 := by
  constructor
  · by_cases hc : cp <;> by_cases hj : jj < nFolds - 1 <;>
      simp [cvFoldOps, countOp, hc, hj, List.filter_append] <;> decide
  · cases cp <;> decide

/-- Witness for C4 at nFolds = 3, jj = 2: no shuffle after the last fold
and two shuffles in total. -/
theorem cv_shuffle_schedule_witness :
    countOp TrainOp.shuffleOp (cvFoldOps 3 false 2)
        = (if 2 < 3 - 1 then 1 else 0) ∧
    countOp TrainOp.shuffleOp (cvOps 3 false) = 2 :=
  cv_shuffle_schedule 3 2 false (by decide)

/-- C3: componentwise_loss records relevance[i][j] = L0 - L_ij: L0 is
the loss of the unmodified model, L_ij the loss after installing the
weight list whose last two entries are the flattened out_weights with
only component i, unit j zeroed and the bias with only unit j zeroed,
every other parameter left at its pre-call value; each ablation is taken
relative to the original weights, never cumulatively. -/
theorem componentwise_loss_relevance (L : List (List ℚ) → ℚ)
    (ow : List (List (List ℚ))) (ob : List ℚ) (nLatent nOut : Nat)
    (mw0 : List (List ℚ)) (i j : Nat)
    (hi : i < nLatent) (hj : j < nOut) (hlen : 2 ≤ mw0.length) :
    entryM (componentwise_loss L ow ob nLatent nOut mw0).1 i j
        = L mw0 - L (installAbl mw0 ow ob i j)
    ∧ (∀ k, k < mw0.length - 2 →
        (installAbl mw0 ow ob i j).getD k [] = mw0.getD k [])
    ∧ (∀ t l u, t < ow.length → l < (ow.getD t []).length →
        u < ((ow.getD t []).getD l []).length →
        entry3 (ablateCol ow i j) t l u
          = if l = i ∧ u = j then 0 else entry3 ow t l u) := by
  have hmain : (componentwise_loss L ow ob nLatent nOut mw0).1
      = (List.range nLatent).map (fun i2 => (List.range nOut).map
          (fun j2 => L mw0 - L (installAbl mw0 ow ob i2 j2))) :=
    (cwlRows_spec L (L mw0) ow ob nOut mw0 (List.range nLatent) mw0
      (fun _ _ => rfl)).1
  refine ⟨?_, ?_, ?_⟩
  · simp only [entryM]
    rw [hmain, getD_map_range nLatent i _ [] hi, getD_map_range nOut j _ 0 hj]
  · intro k hk
    simp only [installAbl, setLast2]
    rw [getD_set_lt _ _ _ _ _ (by simp; omega),
      getD_set_lt _ _ _ _ _ (by omega),
      if_neg (by omega), if_neg (by omega)]
  · intro t l u ht hl hu
    have e1 : (ablateCol ow i j).getD t []
        = (ow.getD t []).set i (((ow.getD t []).getD i []).set j 0) := by
      simp only [ablateCol]
      rw [getD_map_lt _ _ _ _ [] ht]
    simp only [entry3, e1]
    rw [getD_set_lt _ _ _ _ _ hl]
    by_cases hli : i = l
    · rw [if_pos hli, getD_set_lt _ _ _ _ _ (by rw [hli]; exact hu)]
      by_cases huj : j = u
      · rw [if_pos huj, if_pos ⟨hli.symm, huj.symm⟩]
      · rw [if_neg huj, if_neg (by
          intro hc
          exact huj hc.2.symm), hli]
    · rw [if_neg hli, if_neg (by
        intro hc
        exact hli hc.1.symm)]

/-- Witness for C3 on a concrete two-parameter model with one latent
component and one output unit, with the loss functional summing all
weight entries. -/
theorem componentwise_loss_relevance_witness :
    entryM (componentwise_loss (fun ws => ((ws.map List.sum).sum))
        [[[1]]] [2] 1 1 [[3], [1], [2]]).1 0 0
        = (fun ws : List (List ℚ) => ((ws.map List.sum).sum)) [[3], [1], [2]]
          - (fun ws : List (List ℚ) => ((ws.map List.sum).sum))
            (installAbl [[3], [1], [2]] [[[1]]] [2] 0 0)
    ∧ (∀ k, k < ([[3], [1], [2]] : List (List ℚ)).length - 2 →
        (installAbl [[3], [1], [2]] [[[1]]] [2] 0 0).getD k []
          = ([[3], [1], [2]] : List (List ℚ)).getD k [])
    ∧ (∀ t l u, t < ([[[1]]] : List (List (List ℚ))).length →
        l < (([[[1]]] : List (List (List ℚ))).getD t []).length →
        u < ((([[[1]]] : List (List (List ℚ))).getD t []).getD l []).length →
        entry3 (ablateCol [[[1]]] 0 0) t l u
          = if l = 0 ∧ u = 0 then 0 else entry3 [[[1]]] t l u) :=
  componentwise_loss_relevance (fun ws => ((ws.map List.sum).sum))
    [[[1]]] [2] 1 1 [[3], [1], [2]] 0 0 (by decide) (by decide) (by decide)

/-- C1 (code defect): componentwise_loss ends its sweep without a
restoring set_weights call — on a model with one latent component, one
output unit, out_weights [[[1]]], out_biases [2] and weight list
[[3], [1], [2]], the weight list left installed after the sweep differs
from the pre-call weights: the last ablation remains in the model. -/
theorem componentwise_loss_not_restored :
    (componentwise_loss (fun _ => 0) [[[1]]] [2] 1 1 [[3], [1], [2]]).2
      ≠ [[3], [1], [2]] := by
  decide

/-- C2 counterexample: on a batch with two trials (batch = 2, seq = 1,
time = 2, one channel, all values 1, so n_t = 2) the covariance the code
computes divides by n_t - 1 = 1 and yields [[4]], while the formula of
the claim divides by batch*seq*time - 1 = 3; the two disagree. -/
theorem dcov_denominator_counterexample :
    dcov 2 1 [[[[1], [1]]], [[[1], [1]]]]
      ≠ specDataCovariance 1 [[[[1], [1]]], [[[1], [1]]]] := by
  simp [dcov, specDataCovariance, gram, chanFirst, chanRow, dotQ]
  norm_num

/-- C2 (amended): compute_patterns transposes the batch to channel
first, flattens the remaining axes and computes
dataCovariance = X_flat X_flat-transposed / (n_t - 1) where n_t is the
per-trial time-sample count from h_params — each entry is the sum over
all (batch, seq, time) samples of the channel-value products, divided by
n_t - 1.  This equals the claimed T - 1 denominator (T = batch*seq*time)
exactly when the flattened row length equals n_t, i.e. batch*seq = 1. -/
theorem dcov_entry_formula (nt nCh : Nat)
    (X : List (List (List (List ℚ)))) (c1 c2 : Nat)
    (h1 : c1 < nCh) (h2 : c2 < nCh) :
    entryM (dcov nt nCh X) c1 c2
      = (X.flatMap (fun trial => trial.flatMap (fun sq =>
          sq.map (fun ts => ts.getD c1 0 * ts.getD c2 0)))).sum
          / ((nt : ℚ) - 1)
    ∧ (((chanFirst nCh X).getD 0 []).length = nt →
        dcov nt nCh X = specDataCovariance nCh X) := by
  constructor
  · have htab : dcov nt nCh X
        = (List.range nCh).map (fun i => (List.range nCh).map (fun j =>
            dotQ (chanRow i X) (chanRow j X) / ((nt : ℚ) - 1))) := by
      simp [dcov, gram, chanFirst, List.map_map, Function.comp_def]
    rw [htab, entry_tableM nCh nCh _ c1 c2 h1 h2, dotQ_chanRow]
  · intro hT
    simp only [specDataCovariance]
    rw [hT]
    rfl

/-- Witness for C2 (amended) on a single-trial batch (batch = seq = 1,
time = 2, one channel), where the two denominators coincide. -/
theorem dcov_entry_formula_witness :
    (entryM (dcov 2 1 [[[[1], [2]]]]) 0 0
      = (([[[[1], [2]]]] : List (List (List (List ℚ)))).flatMap
          (fun trial => trial.flatMap (fun sq =>
            sq.map (fun ts => ts.getD 0 0 * ts.getD 0 0)))).sum
          / ((2 : ℚ) - 1)
    ∧ (((chanFirst 1 [[[[1], [2]]]]).getD 0 []).length = 2 →
        dcov 2 1 [[[[1], [2]]]] = specDataCovariance 1 [[[[1], [2]]]])) :=
  dcov_entry_formula 2 1 [[[[1], [2]]]] 0 0 (by decide) (by decide)

/-- C5: in a discrete-target multi-fold train run the aggregate
confusion matrix is the elementwise sum (not the average) of the
per-fold matrices, and each per-fold matrix is
onehot(argmax(y_pred)) transposed times y_true over the fold samples. -/
theorem cv_cm_sum_of_folds (n : Nat)
    (folds : List (List (List ℚ) × List (List ℚ))) (a b : Nat)
    (ha : a < n) (hb : b < n) :
    entryM (train_cv_cm n folds) a b
      = (folds.map (fun f => entryM (confusion_matrix n f.1 f.2) a b)).sum ∧
    ∀ yTrue yPred : List (List ℚ),
      entryM (confusion_matrix n yTrue yPred) a b
        = ((yPred.zip yTrue).map (fun rp =>
            (onehotVec n (argmaxL rp.1)).getD a 0 * rp.2.getD b 0)).sum := by
  constructor
  · rw [train_cv_cm, foldl_cm_entry n a b ha hb folds _ (zeroMat_shape n n),
      zeroMat_entry n n a b ha hb]
    ring
  · intro yTrue yPred
    simp only [confusion_matrix]
    rw [entry_tableM n n _ a b ha hb, List.map_map, dotQ_map_map]
    rfl

/-- Witness for C5: two folds of one sample each over two classes; the
aggregate equals the sum of the two one-hot contributions. -/
theorem cv_cm_sum_of_folds_witness :
    (entryM (train_cv_cm 2 [([[1, 0]], [[1, 2]]), ([[1, 0]], [[3, 1]])]) 0 0
      = (([([[1, 0]], [[1, 2]]), ([[1, 0]], [[3, 1]])]
            : List (List (List ℚ) × List (List ℚ))).map
          (fun f => entryM (confusion_matrix 2 f.1 f.2) 0 0)).sum ∧
    ∀ yTrue yPred : List (List ℚ),
      entryM (confusion_matrix 2 yTrue yPred) 0 0
        = ((yPred.zip yTrue).map (fun rp =>
            (onehotVec 2 (argmaxL rp.1)).getD 0 0 * rp.2.getD 0 0)).sum) :=
  cv_cm_sum_of_folds 2 [([[1, 0]], [[1, 2]]), ([[1, 0]], [[3, 1]])] 0 0
    (by decide) (by decide)

/-- C6: for every sorting-mode string other than the six recognized
modes, _sorting reports the mode as unsupported and returns the null
result for both outputs (None, None) instead of raising. -/
theorem sorting_unsupported_mode (d : SortInput) (mode : String)
    (nComp : Nat) (h : mode ∉ sortingModes) :
    _sorting d mode nComp = none := by
  simp only [sortingModes, List.mem_cons, List.not_mem_nil, or_false,
    not_or] at h
  obtain ⟨h1, h2, h3, h4, h5, h6⟩ := h
  simp [_sorting, h1, h2, h3, h4, h5, h6]

/-- Witness for C6 at the unrecognized mode string bogus. -/
theorem sorting_unsupported_mode_witness :
    _sorting ⟨0, 0, [], [], [], [], 0⟩ "bogus" 1 = none :=
  sorting_unsupported_mode ⟨0, 0, [], [], [], [], 0⟩ "bogus" 1 (by decide)

/-- C7: for the weight and output_corr modes, the row of (pat, t) pairs
returned for each output unit i lists exactly the cells of that unit
score matrix (raw out_weights for weight, corr_to_output for
output_corr, transposed to [latent][time]) that attain the matrix
maximum: every returned pair attains max(F) and every maximizing
in-range pair is returned (all exact ties included). -/
theorem sorting_weight_outputcorr_ties (d : SortInput) (nComp i : Nat)
    (hi : i < d.outDim) :
    (∃ o ts, _sorting d "weight" nComp = some (o, ts) ∧
      (o.getD i []).zip (ts.getD i []) = whereEqMax (Fweight d i) ∧
      (∀ pr ∈ (o.getD i []).zip (ts.getD i []),
        entryM (Fweight d i) pr.1 pr.2 = maxMat (Fweight d i)) ∧
      (∀ p t, p < (Fweight d i).length →
        t < ((Fweight d i).getD p []).length →
        entryM (Fweight d i) p t = maxMat (Fweight d i) →
        (p, t) ∈ (o.getD i []).zip (ts.getD i []))) ∧
    (∃ o ts, _sorting d "output_corr" nComp = some (o, ts) ∧
      (o.getD i []).zip (ts.getD i []) = whereEqMax (FoutputCorr d i) ∧
      (∀ pr ∈ (o.getD i []).zip (ts.getD i []),
        entryM (FoutputCorr d i) pr.1 pr.2 = maxMat (FoutputCorr d i)) ∧
      (∀ p t, p < (FoutputCorr d i).length →
        t < ((FoutputCorr d i).getD p []).length →
        entryM (FoutputCorr d i) p t = maxMat (FoutputCorr d i) →
        (p, t) ∈ (o.getD i []).zip (ts.getD i []))) := by
  have hredW : _sorting d "weight" nComp
      = some ((List.range d.outDim).map (fun k =>
          (whereEqMax (Fweight d k)).map Prod.fst),
        (List.range d.outDim).map (fun k =>
          (whereEqMax (Fweight d k)).map Prod.snd)) := by
    simp [_sorting]
  have hredC : _sorting d "output_corr" nComp
      = some ((List.range d.outDim).map (fun k =>
          (whereEqMax (FoutputCorr d k)).map Prod.fst),
        (List.range d.outDim).map (fun k =>
          (whereEqMax (FoutputCorr d k)).map Prod.snd)) := by
    simp [_sorting]
  have hzW : (((List.range d.outDim).map (fun k =>
        (whereEqMax (Fweight d k)).map Prod.fst)).getD i []).zip
      (((List.range d.outDim).map (fun k =>
        (whereEqMax (Fweight d k)).map Prod.snd)).getD i [])
      = whereEqMax (Fweight d i) := by
    rw [getD_map_range d.outDim i _ [] hi, getD_map_range d.outDim i _ [] hi,
      zip_fst_snd]
  have hzC : (((List.range d.outDim).map (fun k =>
        (whereEqMax (FoutputCorr d k)).map Prod.fst)).getD i []).zip
      (((List.range d.outDim).map (fun k =>
        (whereEqMax (FoutputCorr d k)).map Prod.snd)).getD i [])
      = whereEqMax (FoutputCorr d i) := by
    rw [getD_map_range d.outDim i _ [] hi, getD_map_range d.outDim i _ [] hi,
      zip_fst_snd]
  constructor
  · refine ⟨_, _, hredW, hzW, ?_, ?_⟩
    · rw [hzW]
      exact (whereEqMax_rows_spec (Fweight d i)).1
    · rw [hzW]
      exact (whereEqMax_rows_spec (Fweight d i)).2
  · refine ⟨_, _, hredC, hzC, ?_, ?_⟩
    · rw [hzC]
      exact (whereEqMax_rows_spec (FoutputCorr d i)).1
    · rw [hzC]
      exact (whereEqMax_rows_spec (FoutputCorr d i)).2

/-- Witness for C7 on a 1-unit model with two latent components and one
pooled time bin. -/
theorem sorting_weight_outputcorr_ties_witness :
    (∃ o ts, _sorting ⟨1, 2, [[[1], [3]]], [[[2], [5]]], [], [], 0⟩
        "weight" 1 = some (o, ts) ∧
      (o.getD 0 []).zip (ts.getD 0 [])
        = whereEqMax (Fweight ⟨1, 2, [[[1], [3]]], [[[2], [5]]], [], [], 0⟩ 0) ∧
      (∀ pr ∈ (o.getD 0 []).zip (ts.getD 0 []),
        entryM (Fweight ⟨1, 2, [[[1], [3]]], [[[2], [5]]], [], [], 0⟩ 0)
            pr.1 pr.2
          = maxMat (Fweight ⟨1, 2, [[[1], [3]]], [[[2], [5]]], [], [], 0⟩ 0)) ∧
      (∀ p t,
        p < (Fweight ⟨1, 2, [[[1], [3]]], [[[2], [5]]], [], [], 0⟩ 0).length →
        t < ((Fweight ⟨1, 2, [[[1], [3]]], [[[2], [5]]], [], [], 0⟩ 0).getD
            p []).length →
        entryM (Fweight ⟨1, 2, [[[1], [3]]], [[[2], [5]]], [], [], 0⟩ 0) p t
          = maxMat (Fweight ⟨1, 2, [[[1], [3]]], [[[2], [5]]], [], [], 0⟩ 0) →
        (p, t) ∈ (o.getD 0 []).zip (ts.getD 0 []))) ∧
    (∃ o ts, _sorting ⟨1, 2, [[[1], [3]]], [[[2], [5]]], [], [], 0⟩
        "output_corr" 1 = some (o, ts) ∧
      (o.getD 0 []).zip (ts.getD 0 [])
        = whereEqMax
            (FoutputCorr ⟨1, 2, [[[1], [3]]], [[[2], [5]]], [], [], 0⟩ 0) ∧
      (∀ pr ∈ (o.getD 0 []).zip (ts.getD 0 []),
        entryM (FoutputCorr ⟨1, 2, [[[1], [3]]], [[[2], [5]]], [], [], 0⟩ 0)
            pr.1 pr.2
          = maxMat
            (FoutputCorr ⟨1, 2, [[[1], [3]]], [[[2], [5]]], [], [], 0⟩ 0)) ∧
      (∀ p t,
        p < (FoutputCorr ⟨1, 2, [[[1], [3]]], [[[2], [5]]], [], [], 0⟩
            0).length →
        t < ((FoutputCorr ⟨1, 2, [[[1], [3]]], [[[2], [5]]], [], [], 0⟩
            0).getD p []).length →
        entryM (FoutputCorr ⟨1, 2, [[[1], [3]]], [[[2], [5]]], [], [], 0⟩ 0)
            p t
          = maxMat
            (FoutputCorr ⟨1, 2, [[[1], [3]]], [[[2], [5]]], [], [], 0⟩ 0) →
        (p, t) ∈ (o.getD 0 []).zip (ts.getD 0 []))) :=
  sorting_weight_outputcorr_ties ⟨1, 2, [[[1], [3]]], [[[2], [5]]], [], [], 0⟩
    1 0 (by decide)

/-- C8: with a non-empty mapping of positive class weights, train
multiplies every weight by 1 / min(weights); afterwards the smallest
weight is exactly 1 and all pairwise weight ratios are preserved. -/
theorem class_weight_rescale (ws : List ℚ) (hne : ws ≠ [])
    (hpos : ∀ w ∈ ws, 0 < w) :
    (∀ i, i < ws.length →
        (rescale_class_weights ws).getD i 0 = ws.getD i 0 * (1 / minQ ws)) ∧
    minQ (rescale_class_weights ws) = 1 ∧
    (∀ i j, i < ws.length → j < ws.length →
        (rescale_class_weights ws).getD i 0 * ws.getD j 0
          = (rescale_class_weights ws).getD j 0 * ws.getD i 0) := by
  have hm : 0 < minQ ws := minQ_pos ws hne hpos
  refine ⟨?_, ?_, ?_⟩
  · intro i hi
    exact getD_map_mul ws (1 / minQ ws) i hi
  · rw [rescale_class_weights, minQ_map_mul ws (1 / minQ ws) (by positivity)]
    field_simp
  · intro i j hi hj
    have e1 : (rescale_class_weights ws).getD i 0
        = ws.getD i 0 * (1 / minQ ws) := getD_map_mul ws (1 / minQ ws) i hi
    have e2 : (rescale_class_weights ws).getD j 0
        = ws.getD j 0 * (1 / minQ ws) := getD_map_mul ws (1 / minQ ws) j hj
    rw [e1, e2]
    ring

/-- Witness for C8 on the concrete weight mapping [2, 4]. -/
theorem class_weight_rescale_witness :
    (∀ i, i < ([2, 4] : List ℚ).length →
        (rescale_class_weights [2, 4]).getD i 0
          = ([2, 4] : List ℚ).getD i 0 * (1 / minQ [2, 4])) ∧
    minQ (rescale_class_weights [2, 4]) = 1 ∧
    (∀ i j, i < ([2, 4] : List ℚ).length → j < ([2, 4] : List ℚ).length →
        (rescale_class_weights [2, 4]).getD i 0 * ([2, 4] : List ℚ).getD j 0
          = (rescale_class_weights [2, 4]).getD j 0
              * ([2, 4] : List ℚ).getD i 0) :=
  class_weight_rescale [2, 4] (by decide) (by decide)

/-- C9: shuffle_weights replaces each parameter array by a permutation
of its own flattened values reshaped back: for every parameter index k,
the shape is unchanged and the multiset of entries of the flattened data
is unchanged. -/
theorem shuffle_weights_preserves (sigmas : List (List Nat))
    (ws : List ParamArray) (k : Nat) (hlen : sigmas.length = ws.length)
    (hk : k < ws.length)
    (hperm : (sigmas.getD k []).Perm
        (List.range ((ws.getD k ⟨[], []⟩).flat.length))) :
    ((shuffle_weights sigmas ws).getD k ⟨[], []⟩).shape
        = (ws.getD k ⟨[], []⟩).shape ∧
    (((shuffle_weights sigmas ws).getD k ⟨[], []⟩).flat : Multiset ℚ)
        = ((ws.getD k ⟨[], []⟩).flat : Multiset ℚ) := by
  have hk1 : k < sigmas.length := by omega
  have hk2 : k < (shuffle_weights sigmas ws).length := by
    simp [shuffle_weights, hlen, hk]
  have hzip : (shuffle_weights sigmas ws).getD k ⟨[], []⟩
      = shuffleParam (sigmas.getD k []) (ws.getD k ⟨[], []⟩) := by
    rw [getD_of_lt (shuffle_weights sigmas ws) ⟨[], []⟩ k hk2,
      getD_of_lt ws ⟨[], []⟩ k hk, getD_of_lt sigmas [] k hk1]
    simp [shuffle_weights]
  rw [hzip]
  refine ⟨rfl, ?_⟩
  rw [Multiset.coe_eq_coe]
  exact applyPerm_perm _ _ hperm

/-- Witness for C9: one 2x1 parameter array with entries [3, 5] and the
transposition [1, 0]. -/
theorem shuffle_weights_preserves_witness :
    ((shuffle_weights [[1, 0]] [⟨[2, 1], [3, 5]⟩]).getD 0 ⟨[], []⟩).shape
        = (([⟨[2, 1], [3, 5]⟩] : List ParamArray).getD 0 ⟨[], []⟩).shape ∧
    (((shuffle_weights [[1, 0]] [⟨[2, 1], [3, 5]⟩]).getD 0 ⟨[], []⟩).flat
        : Multiset ℚ)
        = ((([⟨[2, 1], [3, 5]⟩] : List ParamArray).getD 0 ⟨[], []⟩).flat
        : Multiset ℚ) :=
  shuffle_weights_preserves [[1, 0]] [⟨[2, 1], [3, 5]⟩] 0 (by decide)
    (by decide) (by decide)

end Mneflow
